import Mathlib

set_option maxRecDepth 8000

/-! Verification development for the transaction ingestion and deduplication
pipeline of a personal-finance application (`database.py` together with the
ingestion portion of `main.py`).

Modelling conventions: Python strings are embedded as `List Char`, monetary
amounts as `ℚ`, timestamps (`CURRENT_TIMESTAMP`) as a `ℕ` parameter threaded
into each mutating operation, and the SQLite `transactions` table as a list of
rows plus the next `AUTOINCREMENT` surrogate id. -/

/-- Characters removed by Python's `str.strip()` (ASCII whitespace). -/
def pySpaceChar (c : Char) : Bool :=
  c.toNat == 32 || c.toNat == 9 || c.toNat == 10 || c.toNat == 13 || c.toNat == 11 || c.toNat == 12

/-- Model of Python `str.strip()`: drop whitespace from both ends. -/
def pyStrip (s : List Char) : List Char :=
  ((s.dropWhile pySpaceChar).reverse.dropWhile pySpaceChar).reverse

/-- The decimal digit character for `n % 10`. -/
def digitChar10 (n : ℕ) : Char := Char.ofNat (48 + n % 10)

/-- Fuel-driven digit expansion; for `n ≤ fuel` it produces the standard
decimal numeral of `n`, most significant digit first. -/
def natDecimalAux : ℕ → ℕ → List Char
  | 0, n => [digitChar10 n]
  | fuel + 1, n => if n < 10 then [digitChar10 n] else natDecimalAux fuel (n / 10) ++ [digitChar10 n]

/-- Standard decimal rendering of a natural number (no sign, no padding), as
Python string formatting renders the integral part of a number. -/
def natDecimal (n : ℕ) : List Char := natDecimalAux n n

/-- Rendering of a non-negative cent count as a decimal numeral with exactly
two fractional digits, the shape produced by Python's `f"{x:.2f}"` for
non-negative `x`. -/
def centsRender (c : ℕ) : List Char :=
  natDecimal (c / 100) ++ '.' :: [digitChar10 (c / 10), digitChar10 c]

/-- Model of Python's built-in `abs()` on a number. -/
def qabs (q : ℚ) : ℚ := if q < 0 then -q else q

/-- The cent count of `abs(q)`: the absolute amount rounded to two decimal
places, as Python's `f"{abs(x):.2f}"` rounds it.  Computed on the reduced
fraction: `⌊100 * |q| + 1 / 2⌋ = (200 * |num| + den) / (2 * den)`. -/
def absCents (q : ℚ) : ℕ := (200 * q.num.natAbs + q.den) / (2 * q.den)

/-- Model of the Python format expression `f"{abs(importe):.2f}"` used in
`FinanceDatabase.generate_transaction_hash`. -/
def formatAbs2 (q : ℚ) : List Char := centsRender (absCents q)

/-- The normalization string built by `FinanceDatabase.generate_transaction_hash`:
`f"{fecha_valor}|{concepto.strip()}|{abs(importe):.2f}"`. -/
def normalizedData (fecha concepto : List Char) (importe : ℚ) : List Char :=
  fecha ++ '|' :: (pyStrip concepto ++ '|' :: formatAbs2 importe)

/-- UTF-8 encoding of one Unicode code point as a list of bytes. -/
def utf8Char (n : ℕ) : List ℕ :=
  if n < 128 then [n]
  else if n < 2048 then [192 + n / 64, 128 + n % 64]
  else if n < 65536 then [224 + n / 4096, 128 + n / 64 % 64, 128 + n % 64]
  else [240 + n / 262144, 128 + n / 4096 % 64, 128 + n / 64 % 64, 128 + n % 64]

/-- Model of Python `str.encode("utf-8")`. -/
def utf8Encode (s : List Char) : List ℕ := (s.map (fun c => utf8Char c.toNat)).flatten

/-- `2 ^ 32`, the modulus of SHA-256 word arithmetic. -/
def w32 : ℕ := 4294967296

/-- Right rotation of a 32-bit word by `n` bits. -/
def rotr32 (n x : ℕ) : ℕ := x / 2 ^ n + x % 2 ^ n * 2 ^ (32 - n)

/-- SHA-256 lowercase sigma 0. -/
def ssig0 (x : ℕ) : ℕ := (rotr32 7 x) ^^^ ((rotr32 18 x) ^^^ (x / 8))

/-- SHA-256 lowercase sigma 1. -/
def ssig1 (x : ℕ) : ℕ := (rotr32 17 x) ^^^ ((rotr32 19 x) ^^^ (x / 1024))

/-- SHA-256 uppercase Sigma 0. -/
def bsig0 (x : ℕ) : ℕ := (rotr32 2 x) ^^^ ((rotr32 13 x) ^^^ (rotr32 22 x))

/-- SHA-256 uppercase Sigma 1. -/
def bsig1 (x : ℕ) : ℕ := (rotr32 6 x) ^^^ ((rotr32 11 x) ^^^ (rotr32 25 x))

/-- SHA-256 choice function. -/
def chFn (x y z : ℕ) : ℕ := (x &&& y) ^^^ ((x ^^^ 4294967295) &&& z)

/-- SHA-256 majority function. -/
def majFn (x y z : ℕ) : ℕ := (x &&& y) ^^^ ((x &&& z) ^^^ (y &&& z))

/-- The 64 SHA-256 round constants. -/
def shaK : List ℕ :=
  [1116352408, 1899447441, 3049323471, 3921009573,
   961987163, 1508970993, 2453635748, 2870763221,
   3624381080, 310598401, 607225278, 1426881987,
   1925078388, 2162078206, 2614888103, 3248222580,
   3835390401, 4022224774, 264347078, 604807628,
   770255983, 1249150122, 1555081692, 1996064986,
   2554220882, 2821834349, 2952996808, 3210313671,
   3336571891, 3584528711, 113926993, 338241895,
   666307205, 773529912, 1294757372, 1396182291,
   1695183700, 1986661051, 2177026350, 2456956037,
   2730485921, 2820302411, 3259730800, 3345764771,
   3516065817, 3600352804, 4094571909, 275423344,
   430227734, 506948616, 659060556, 883997877,
   958139571, 1322822218, 1537002063, 1747873779,
   1955562222, 2024104815, 2227730452, 2361852424,
   2428436474, 2756734187, 3204031479, 3329325298]

/-- The eight 32-bit working variables of SHA-256. -/
structure Sha256State where
  a : ℕ
  b : ℕ
  c : ℕ
  d : ℕ
  e : ℕ
  f : ℕ
  g : ℕ
  h : ℕ
deriving DecidableEq

/-- The SHA-256 initial hash value. -/
def shaInit : Sha256State :=
  ⟨1779033703, 3144134277, 1013904242, 2773480762, 1359893119, 2600822924, 528734635, 1541459225⟩

/-- SHA-256 message padding: append `0x80`, zero bytes up to 56 mod 64, and
the 64-bit big-endian bit length. -/
def shaPad (msg : List ℕ) : List ℕ :=
  msg ++ 128 :: List.replicate ((119 - msg.length % 64) % 64) 0 ++
    [8 * msg.length / 2 ^ 56 % 256, 8 * msg.length / 2 ^ 48 % 256,
     8 * msg.length / 2 ^ 40 % 256, 8 * msg.length / 2 ^ 32 % 256,
     8 * msg.length / 2 ^ 24 % 256, 8 * msg.length / 2 ^ 16 % 256,
     8 * msg.length / 2 ^ 8 % 256, 8 * msg.length % 256]

/-- Fuel-driven block splitting; for `l.length ≤ fuel` it cuts `l` into
consecutive 64-byte chunks. -/
def chunk64Aux : ℕ → List ℕ → List (List ℕ)
  | 0, _ => []
  | fuel + 1, l => if l = [] then [] else l.take 64 :: chunk64Aux fuel (l.drop 64)

/-- Split a byte list into 64-byte blocks. -/
def chunk64 (l : List ℕ) : List (List ℕ) := chunk64Aux l.length l

/-- The 16 big-endian 32-bit words of one 64-byte block. -/
def blockWords (b : List ℕ) : List ℕ :=
  (List.range 16).map (fun i =>
    b.getD (4 * i) 0 * 16777216 + b.getD (4 * i + 1) 0 * 65536 +
      b.getD (4 * i + 2) 0 * 256 + b.getD (4 * i + 3) 0)

/-- Extend 16 message words to the 64-entry SHA-256 message schedule. -/
def shaSchedule (ws : List ℕ) : List ℕ :=
  (List.range 48).foldl
    (fun acc _ =>
      acc ++ [(ssig1 (acc.getD (acc.length - 2) 0) + acc.getD (acc.length - 7) 0 +
        ssig0 (acc.getD (acc.length - 15) 0) + acc.getD (acc.length - 16) 0) % w32])
    ws

/-- One SHA-256 compression round; `kw` is the round constant paired with the
schedule word. -/
def shaRound (st : Sha256State) (kw : ℕ × ℕ) : Sha256State :=
  let t1 := (st.h + bsig1 st.e + chFn st.e st.f st.g + kw.1 + kw.2) % w32
  let t2 := (bsig0 st.a + majFn st.a st.b st.c) % w32
  ⟨(t1 + t2) % w32, st.a, st.b, st.c, (st.d + t1) % w32, st.e, st.f, st.g⟩

/-- Process one 64-byte block: run the 64 rounds and add the result into the
incoming state, word-wise mod `2 ^ 32`. -/
def shaBlock (st : Sha256State) (blk : List ℕ) : Sha256State :=
  let z := (shaK.zip (shaSchedule (blockWords blk))).foldl shaRound st
  ⟨(st.a + z.a) % w32, (st.b + z.b) % w32, (st.c + z.c) % w32, (st.d + z.d) % w32,
   (st.e + z.e) % w32, (st.f + z.f) % w32, (st.g + z.g) % w32, (st.h + z.h) % w32⟩

/-- SHA-256 of a byte sequence, as the final eight-word state. -/
def sha256 (msg : List ℕ) : Sha256State := (chunk64 (shaPad msg)).foldl shaBlock shaInit

/-- Lowercase hexadecimal digit for `n % 16`. -/
def hexChar (n : ℕ) : Char :=
  Char.ofNat (if n % 16 < 10 then 48 + n % 16 else 87 + n % 16)

/-- Lowercase hexadecimal rendering (8 digits) of one 32-bit word. -/
def wordHex (x : ℕ) : List Char :=
  let y := x % w32
  [hexChar (y / 2 ^ 28), hexChar (y / 2 ^ 24), hexChar (y / 2 ^ 20), hexChar (y / 2 ^ 16),
   hexChar (y / 2 ^ 12), hexChar (y / 2 ^ 8), hexChar (y / 2 ^ 4), hexChar y]

/-- Model of Python `hashlib.sha256(data).hexdigest()`: the 64-character
lowercase hexadecimal digest of a byte sequence. -/
def hexdigest (msg : List ℕ) : List Char :=
  let d := sha256 msg
  wordHex d.a ++ wordHex d.b ++ wordHex d.c ++ wordHex d.d ++
    wordHex d.e ++ wordHex d.f ++ wordHex d.g ++ wordHex d.h

/-- Embedding of `FinanceDatabase.generate_transaction_hash`. -/
def generate_transaction_hash (fecha concepto : List Char) (importe : ℚ) : List Char :=
  hexdigest (utf8Encode (normalizedData fecha concepto importe))

/-- The digest packed into eight `Fin w32` words; used to count possible
digests. -/
def digestFin (msg : List ℕ) :
    Fin w32 × Fin w32 × Fin w32 × Fin w32 × Fin w32 × Fin w32 × Fin w32 × Fin w32 :=
  let d := sha256 msg
  (⟨d.a % w32, Nat.mod_lt _ (by norm_num [w32])⟩, ⟨d.b % w32, Nat.mod_lt _ (by norm_num [w32])⟩,
   ⟨d.c % w32, Nat.mod_lt _ (by norm_num [w32])⟩, ⟨d.d % w32, Nat.mod_lt _ (by norm_num [w32])⟩,
   ⟨d.e % w32, Nat.mod_lt _ (by norm_num [w32])⟩, ⟨d.f % w32, Nat.mod_lt _ (by norm_num [w32])⟩,
   ⟨d.g % w32, Nat.mod_lt _ (by norm_num [w32])⟩, ⟨d.h % w32, Nat.mod_lt _ (by norm_num [w32])⟩)

/-- One row of the SQLite `transactions` table. -/
structure StoredRow where
  rowId : ℕ
  transactionHash : List Char
  fechaValor : List Char
  concepto : List Char
  importe : ℚ
  tipo : List Char
  category : List Char
  uploadDate : ℕ
  lastModified : ℕ
deriving DecidableEq

/-- The `transactions` table together with the next `AUTOINCREMENT` id. -/
structure Store where
  rows : List StoredRow
  nextId : ℕ
deriving DecidableEq

/-- A freshly created database. -/
def emptyStore : Store := ⟨[], 1⟩

/-- A candidate row of the ingested data frame: the columns
`Fecha valor` (already rendered by `strftime("%Y-%m-%d")`), `Concepto`,
`Importe`, `Tipo`, `Category`. -/
structure CandidateRow where
  fechaValor : List Char
  concepto : List Char
  importe : ℚ
  tipo : List Char
  category : List Char
deriving DecidableEq

/-- All content hashes currently stored. -/
def storeHashes (s : Store) : List (List Char) := s.rows.map (fun r => r.transactionHash)

/-- The content hash of a candidate row. -/
def hashOfRow (r : CandidateRow) : List Char :=
  generate_transaction_hash r.fechaValor r.concepto r.importe

/-- One iteration of the row loop of `FinanceDatabase.insert_transactions`:
a row whose per-row processing raises (`none`) is counted as a duplicate and
skipped; otherwise `INSERT OR IGNORE` inserts the row exactly when its content
hash is absent, and `cursor.rowcount` routes the counter update. -/
def insertStep (now : ℕ) (acc : (ℕ × ℕ) × Store) (row : Option CandidateRow) :
    (ℕ × ℕ) × Store :=
  match row with
  | none => ((acc.1.1, acc.1.2 + 1), acc.2)
  | some r =>
    if hashOfRow r ∈ storeHashes acc.2 then ((acc.1.1, acc.1.2 + 1), acc.2)
    else
      ((acc.1.1 + 1, acc.1.2),
       ⟨acc.2.rows ++ [⟨acc.2.nextId, hashOfRow r, r.fechaValor, r.concepto, r.importe,
          r.tipo, r.category, now, now⟩],
        acc.2.nextId + 1⟩)

/-- Embedding of `FinanceDatabase.insert_transactions`: fold the row loop over
the data frame, returning `(new_count, duplicate_count)` and the updated
table. -/
def insert_transactions (df : List (Option CandidateRow)) (now : ℕ) (s : Store) :
    (ℕ × ℕ) × Store :=
  df.foldl (insertStep now) ((0, 0), s)

/-- Embedding of `FinanceDatabase.update_transaction_category`:
`UPDATE transactions SET category = ?, last_modified = CURRENT_TIMESTAMP
WHERE transaction_hash = ?`. -/
def update_transaction_category (h newCategory : List Char) (now : ℕ) (s : Store) : Store :=
  ⟨s.rows.map (fun r =>
     if r.transactionHash = h then { r with category := newCategory, lastModified := now } else r),
   s.nextId⟩

/-- Embedding of `FinanceDatabase.update_transactions_by_concept`:
`UPDATE transactions SET category = ?, last_modified = CURRENT_TIMESTAMP
WHERE concepto = ?`, returning `cursor.rowcount`. -/
def update_transactions_by_concept (concepto newCategory : List Char) (now : ℕ) (s : Store) :
    ℕ × Store :=
  ((s.rows.filter (fun r => decide (r.concepto = concepto))).length,
   ⟨s.rows.map (fun r =>
      if r.concepto = concepto then { r with category := newCategory, lastModified := now } else r),
    s.nextId⟩)

/-- Strict lexicographic order on character lists, the order SQLite's memcmp
text comparison induces on ASCII strings (ISO dates compare chronologically). -/
def ltChars : List Char → List Char → Bool
  | [], [] => false
  | [], _ :: _ => true
  | _ :: _, [] => false
  | a :: as, b :: bs => if a < b then true else if b < a then false else ltChars as bs

/-- Comparison realizing `ORDER BY fecha_valor DESC` as SQLite executes it:
the query is served by scanning the `idx_fecha_valor` index backwards, so rows
are produced in descending `(fecha_valor, rowid)` lexicographic order. -/
def loadOrder (a b : StoredRow) : Bool :=
  ltChars b.fechaValor a.fechaValor ||
    (decide (b.fechaValor = a.fechaValor) && decide (b.rowId ≤ a.rowId))

/-- `loadOrder` as a relation, for sorting. -/
def loadRel (a b : StoredRow) : Prop := loadOrder a b = true

instance : DecidableRel loadRel :=
  fun a b => inferInstanceAs (Decidable (loadOrder a b = true))

/-- The rows of the table in the order `load_all_transactions` receives them. -/
def orderedRows (s : Store) : List StoredRow := s.rows.insertionSort loadRel

/-- The five columns selected by `load_all_transactions`. -/
def projRow (r : StoredRow) : List Char × List Char × ℚ × List Char × List Char :=
  (r.fechaValor, r.concepto, r.importe, r.tipo, r.category)

/-- Embedding of `FinanceDatabase.load_all_transactions`:
`SELECT fecha_valor, concepto, importe, tipo, category FROM transactions
ORDER BY fecha_valor DESC`. -/
def load_all_transactions (s : Store) : List (List Char × List Char × ℚ × List Char × List Char) :=
  (orderedRows s).map projRow

/-- The sentinel category name `UNCATEGORIZED_CATEGORY` of `main.py`. -/
def UNCAT : List Char := "Uncategorized".toList

/-- Model of Python `str.lower()`. -/
def toLowerL (s : List Char) : List Char := s.map Char.toLower

/-- Model of the Python substring test `needle in hay`. -/
def containsSub (hay needle : List Char) : Bool :=
  hay.tails.any (fun t => needle.isPrefixOf t)

/-- The inner keyword test of `categorize_transactions`: some keyword,
lowercased and stripped, occurs in the lowercased, stripped description. -/
def kwMatched (concepto : List Char) (kws : List (List Char)) : Bool :=
  kws.any (fun kw => containsSub (pyStrip (toLowerL concepto)) (pyStrip (toLowerL kw)))

/-- Embedding of `categorize_transactions` of `main.py` for one description:
start from `Uncategorized`, then iterate the registry in order, skipping the
`Uncategorized` entry and entries with no keywords, and overwrite the current
category whenever some keyword matches (so a later matching category replaces
an earlier one). -/
def categorize_transactions (cats : List (List Char × List (List Char)))
    (concepto : List Char) : List Char :=
  cats.foldl
    (fun acc ckw =>
      if ckw.1 = UNCAT ∨ ckw.2 = [] then acc
      else if kwMatched concepto ckw.2 then ckw.1 else acc)
    UNCAT

/-- The categorizer as claim C4 words it: the FIRST category in registry order
with a matching keyword wins; no match gives `Uncategorized`. Stated from the
spec, for comparison against `categorize_transactions`. -/
def categorizeFirstMatchSpec (cats : List (List Char × List (List Char)))
    (concepto : List Char) : List Char :=
  match cats.find? (fun ckw => kwMatched concepto ckw.2) with
  | some ckw => ckw.1
  | none => UNCAT

/-- Remove every occurrence of a character, Python `str.replace(c, "")`. -/
def removeAll (c : Char) (s : List Char) : List Char := s.filter (fun x => decide (x ≠ c))

/-- Numeric value of a digit string. -/
def digitsVal (ds : List Char) : ℕ := ds.foldl (fun acc c => 10 * acc + (c.toNat - 48)) 0

/-- All characters are ASCII digits. -/
def allDigits (ds : List Char) : Bool := ds.all Char.isDigit

/-- Parse an unsigned decimal mantissa (`123`, `123.45`, `123.`, `.45`),
rejecting anything else; the result is the scaled integer value paired with
the number of fractional digits. -/
def parseUnsignedMantissa (u : List Char) : Option (ℕ × ℕ) :=
  let ip := u.takeWhile (fun c => decide (c ≠ '.'))
  let rest := u.dropWhile (fun c => decide (c ≠ '.'))
  match rest with
  | [] => if allDigits ip ∧ ip ≠ [] then some (digitsVal ip, 0) else none
  | _ :: fp =>
    if allDigits ip ∧ allDigits fp ∧ (ip ≠ [] ∨ fp ≠ []) then
      some (digitsVal ip * 10 ^ fp.length + digitsVal fp, fp.length)
    else none

/-- Split a leading sign off a numeral. -/
def parseSign (s : List Char) : ℤ × List Char :=
  match s with
  | '+' :: r => (1, r)
  | '-' :: r => (-1, r)
  | r => (1, r)

/-- Parse an optionally signed decimal exponent. -/
def parseExp (x : List Char) : Option ℤ :=
  match x with
  | '+' :: ds => if allDigits ds ∧ ds ≠ [] then some ((digitsVal ds : ℤ)) else none
  | '-' :: ds => if allDigits ds ∧ ds ≠ [] then some (-(digitsVal ds : ℤ)) else none
  | ds => if allDigits ds ∧ ds ≠ [] then some ((digitsVal ds : ℤ)) else none

/-- Model of Python's `float()` constructor on finite decimal literals
(optional surrounding whitespace, optional sign, decimal mantissa, optional
decimal exponent; the special forms `inf`/`nan` do not arise from bank CSV
amount fields and are not modelled). -/
def pyFloat (s : List Char) : Option ℚ :=
  let t := pyStrip s
  let sgn := parseSign t
  let m := sgn.2.takeWhile (fun c => decide (c ≠ 'e' ∧ c ≠ 'E'))
  let rest := sgn.2.dropWhile (fun c => decide (c ≠ 'e' ∧ c ≠ 'E'))
  match parseUnsignedMantissa m with
  | none => none
  | some v =>
    match rest with
    | [] => some (mkRat (sgn.1 * v.1) (10 ^ v.2))
    | _ :: x =>
      match parseExp x with
      | none => none
      | some z => some (mkRat (sgn.1 * (v.1 * 10 ^ z.toNat)) (10 ^ v.2 * 10 ^ (-z).toNat))

/-- The `Importe` cleaning chain of `load_transactions`:
`.str.replace(".", "").str.replace(",", ".").str.replace("€", "").astype(float)`
applied to one raw amount string; `none` is the `MalformedAmount` outcome. -/
def normalizeImporte (raw : List Char) : Option ℚ :=
  pyFloat (removeAll '€' ((removeAll '.' raw).map (fun c => if c = ',' then '.' else c)))

/-- The transaction kind string `Tipo` of `load_transactions`:
`"Debit" if x < 0 else "Credit"`. -/
def tipoOf (x : ℚ) : List Char := if x < 0 then "Debit".toList else "Credit".toList

/-- The amount-processing slice of `load_transactions`: parse the raw amount,
classify `Tipo` from its sign, and store the absolute value as `Importe`. -/
def processAmount (raw : List Char) : Option (ℚ × List Char) :=
  match normalizeImporte raw with
  | none => none
  | some x => some (qabs x, tipoOf x)

/-- A concrete candidate row: 2.50 € spent on coffee on 2024-01-02. -/
def wCand : CandidateRow :=
  ⟨"2024-01-02".toList, "Coffee".toList, mkRat (-250) 100, "Debit".toList, "Uncategorized".toList⟩

/-- The stored form of `wCand` with surrogate id 1. -/
def wRow : StoredRow :=
  ⟨1, hashOfRow wCand, wCand.fechaValor, wCand.concepto, wCand.importe, wCand.tipo,
   wCand.category, 3, 3⟩

/-- A one-row table already containing `wCand`. -/
def wStore : Store := ⟨[wRow], 2⟩

/-- A second concrete candidate row, distinct from `wCand`. -/
def wCand2 : CandidateRow :=
  ⟨"2024-03-05".toList, "Rent".toList, mkRat (-80000) 100, "Debit".toList, "Uncategorized".toList⟩

/-- Candidate rows sharing the value date 2024-01-01, for exercising the
ordering of `load_all_transactions` on date ties. -/
def cA : CandidateRow :=
  ⟨"2024-01-01".toList, "A".toList, 1, "Credit".toList, "Uncategorized".toList⟩

/-- Second candidate row with the same value date as `cA`. -/
def cB : CandidateRow :=
  ⟨"2024-01-01".toList, "B".toList, 2, "Credit".toList, "Uncategorized".toList⟩

/-- The table obtained by ingesting `cA` then `cB` into an empty database. -/
def cStore : Store := (insert_transactions [some cA, some cB] 5 emptyStore).2

/-- The stored form of `cA` (inserted first, id 1). -/
def rA : StoredRow :=
  ⟨1, hashOfRow cA, cA.fechaValor, cA.concepto, cA.importe, cA.tipo, cA.category, 5, 5⟩

/-- The stored form of `cB` (inserted second, id 2). -/
def rB : StoredRow :=
  ⟨2, hashOfRow cB, cB.fechaValor, cB.concepto, cB.importe, cB.tipo, cB.category, 5, 5⟩

/-- A stored row with description `A`, for the category-update claims. -/
def w7a : StoredRow :=
  ⟨1, "h1".toList, "2024-01-01".toList, "A".toList, 1, "Credit".toList, "X".toList, 2, 2⟩

/-- A stored row with description `B`, for the category-update claims. -/
def w7b : StoredRow :=
  ⟨2, "h2".toList, "2024-01-02".toList, "B".toList, 2, "Credit".toList, "Y".toList, 2, 2⟩

/-- A two-row table with distinct descriptions and distinct hashes. -/
def w7store : Store := ⟨[w7a, w7b], 3⟩

/-- A concrete ISO value date, used to instantiate hash statements. -/
def isoDateW : List Char := "2024-01-01".toList

/-! ## Properties of `insert_transactions` -/

theorem insertFold_shift (df : List (Option CandidateRow)) (now a b : ℕ) (s : Store) :
    df.foldl (insertStep now) ((a, b), s) =
      ((a + (insert_transactions df now s).1.1, b + (insert_transactions df now s).1.2),
        (insert_transactions df now s).2) := by
  induction df generalizing a b s with
  | nil => simp [insert_transactions]
  | cons r df ih =>
    cases r with
    | none =>
      simp only [insert_transactions, List.foldl_cons, insertStep]
      rw [ih a (b + 1) s, ih 0 1 s]
      simp only [Prod.mk.injEq]
      refine ⟨⟨?_, ?_⟩, ?_⟩ <;> first | omega | trivial
    | some r =>
      by_cases hmem : hashOfRow r ∈ storeHashes s
      · simp only [insert_transactions, List.foldl_cons, insertStep, hmem, if_true]
        rw [ih a (b + 1) s, ih 0 1 s]
        simp only [Prod.mk.injEq]
        refine ⟨⟨?_, ?_⟩, ?_⟩ <;> first | omega | trivial
      · simp only [insert_transactions, List.foldl_cons, insertStep, hmem, if_false]
        rw [ih (a + 1) b _, ih 1 0 _]
        simp only [Prod.mk.injEq]
        refine ⟨⟨?_, ?_⟩, ?_⟩ <;> first | omega | trivial

theorem insert_counts (df : List (Option CandidateRow)) (now : ℕ) (s : Store) :
    (insert_transactions df now s).1.1 + (insert_transactions df now s).1.2 = df.length ∧
    (insert_transactions df now s).2.rows.length =
      s.rows.length + (insert_transactions df now s).1.1 := by
  induction df generalizing s with
  | nil => simp [insert_transactions]
  | cons r df ih =>
    cases r with
    | none =>
      have expand : insert_transactions (none :: df) now s =
          df.foldl (insertStep now) ((0, 1), s) := rfl
      rw [expand, insertFold_shift]
      obtain ⟨h1, h2⟩ := ih s
      refine ⟨by simpa using by omega, by simpa using by omega⟩
    | some r =>
      by_cases hmem : hashOfRow r ∈ storeHashes s
      · have expand : insert_transactions (some r :: df) now s =
            df.foldl (insertStep now) ((0, 1), s) := by
          simp only [insert_transactions, List.foldl_cons, insertStep, hmem, if_true]
        rw [expand, insertFold_shift]
        obtain ⟨h1, h2⟩ := ih s
        refine ⟨by simpa using by omega, by simpa using by omega⟩
      · have expand : insert_transactions (some r :: df) now s =
            df.foldl (insertStep now)
              ((1, 0), ⟨s.rows ++ [⟨s.nextId, hashOfRow r, r.fechaValor, r.concepto, r.importe,
                r.tipo, r.category, now, now⟩], s.nextId + 1⟩) := by
          simp only [insert_transactions, List.foldl_cons, insertStep, hmem, if_false]
        rw [expand, insertFold_shift]
        obtain ⟨h1, h2⟩ := ih (⟨s.rows ++ [⟨s.nextId, hashOfRow r, r.fechaValor, r.concepto,
          r.importe, r.tipo, r.category, now, now⟩], s.nextId + 1⟩ : Store)
        constructor
        · simp only [List.length_cons]
          omega
        · simp only [List.length_append, List.length_cons, List.length_nil] at h2
          simpa using by omega

theorem insert_all_present (rows : List CandidateRow) (now : ℕ) (s : Store)
    (hp : ∀ r ∈ rows, hashOfRow r ∈ storeHashes s) :
    insert_transactions (rows.map some) now s = ((0, rows.length), s) := by
  induction rows with
  | nil => simp [insert_transactions]
  | cons r rows ih =>
    have hr : hashOfRow r ∈ storeHashes s := hp r (by simp)
    have expand : insert_transactions ((r :: rows).map some) now s =
        (rows.map some).foldl (insertStep now) ((0, 1), s) := by
      simp only [List.map_cons, insert_transactions, List.foldl_cons, insertStep, hr, if_true]
    rw [expand, insertFold_shift, ih (fun x hx => hp x (by simp [hx]))]
    simp only [Prod.mk.injEq, List.length_cons]
    refine ⟨⟨?_, ?_⟩, ?_⟩ <;> first | omega | trivial

theorem insert_fresh_nodup (rows : List CandidateRow) (now : ℕ) (s : Store)
    (hnd : (rows.map hashOfRow).Nodup) (hdis : ∀ r ∈ rows, hashOfRow r ∉ storeHashes s) :
    (insert_transactions (rows.map some) now s).1 = (rows.length, 0) ∧
    storeHashes (insert_transactions (rows.map some) now s).2 =
      storeHashes s ++ rows.map hashOfRow := by
  induction rows generalizing s with
  | nil => simp [insert_transactions]
  | cons r rows ih =>
    have hr : hashOfRow r ∉ storeHashes s := hdis r (by simp)
    have hhead : hashOfRow r ∉ rows.map hashOfRow := (List.nodup_cons.mp (by simpa using hnd)).1
    have expand : insert_transactions ((r :: rows).map some) now s =
        (rows.map some).foldl (insertStep now)
          ((1, 0), ⟨s.rows ++ [⟨s.nextId, hashOfRow r, r.fechaValor, r.concepto, r.importe,
            r.tipo, r.category, now, now⟩], s.nextId + 1⟩) := by
      simp only [List.map_cons, insert_transactions, List.foldl_cons, insertStep, hr, if_false]
    have hT : storeHashes (⟨s.rows ++ [⟨s.nextId, hashOfRow r, r.fechaValor, r.concepto,
        r.importe, r.tipo, r.category, now, now⟩], s.nextId + 1⟩ : Store) =
        storeHashes s ++ [hashOfRow r] := by
      simp [storeHashes]
    have ihT := ih (⟨s.rows ++ [⟨s.nextId, hashOfRow r, r.fechaValor, r.concepto, r.importe,
        r.tipo, r.category, now, now⟩], s.nextId + 1⟩ : Store)
      ((List.nodup_cons.mp (by simpa using hnd)).2)
      (by
        intro x hx
        rw [hT]
        intro hmem
        rcases List.mem_append.mp hmem with hmem | hmem
        · exact hdis x (by simp [hx]) hmem
        · rcases List.mem_singleton.mp hmem with heq
          exact hhead (heq ▸ List.mem_map_of_mem hashOfRow hx))
    rw [expand, insertFold_shift]
    constructor
    · simp only [Prod.mk.injEq, List.length_cons]
      obtain ⟨h1, _⟩ := ihT
      rw [h1]
      exact ⟨by omega, by omega⟩
    · obtain ⟨_, h2⟩ := ihT
      rw [h2, hT]
      simp

/-- C2: for every store state and every record whose content hash already
exists in the store, inserting that record is a no-op: the result counts it as
skipped (`(0, 1)`), the store — including the pre-existing row and its
category — is unchanged, and hash uniqueness is preserved. -/
theorem C2_duplicate_insert_noop (r : CandidateRow) (now : ℕ) (s : Store)
    (hmem : hashOfRow r ∈ storeHashes s) :
    insert_transactions [some r] now s = ((0, 1), s) ∧
    ((storeHashes s).Nodup → (storeHashes (insert_transactions [some r] now s).2).Nodup) := by
  have h := insert_all_present [r] now s (by simpa using hmem)
  refine ⟨by simpa using h, fun hnd => ?_⟩
  have h2 : (insert_transactions [some r] now s).2 = s := by
    have := congrArg Prod.snd h
    simpa using this
  rw [h2]
  exact hnd

/-- Witness for C2: a store already holding the coffee transaction skips the
re-inserted duplicate and is left unchanged. -/
theorem C2_duplicate_insert_noop_witness :
    hashOfRow wCand ∈ storeHashes wStore ∧
    insert_transactions [some wCand] 7 wStore = ((0, 1), wStore) :=
  ⟨by simp [wStore, storeHashes, wRow],
   (C2_duplicate_insert_noop wCand 7 wStore (by simp [wStore, storeHashes, wRow])).1⟩

/-- C3 (amended): for a batch of well-formed records whose content hashes are
pairwise distinct and none of which is already stored, the first
`insert_transactions` returns `(N, 0)` and the second returns `(0, N)` while
leaving the store unchanged. -/
theorem C3_insert_idempotent_amended (rows : List CandidateRow) (now now2 : ℕ) (s : Store)
    (hnd : (rows.map hashOfRow).Nodup)
    (hdis : ∀ r ∈ rows, hashOfRow r ∉ storeHashes s) :
    (insert_transactions (rows.map some) now s).1 = (rows.length, 0) ∧
    insert_transactions (rows.map some) now2 (insert_transactions (rows.map some) now s).2 =
      ((0, rows.length), (insert_transactions (rows.map some) now s).2) := by
  obtain ⟨h1, h2⟩ := insert_fresh_nodup rows now s hnd hdis
  refine ⟨h1, insert_all_present rows now2 _ ?_⟩
  intro r hr
  rw [h2]
  exact List.mem_append.mpr (Or.inr (List.mem_map_of_mem hashOfRow hr))

/-- Witness for C3 (amended): a singleton batch against the empty store
reports `(1, 0)` and then `(0, 1)` with no store change. -/
theorem C3_insert_idempotent_amended_witness :
    ([wCand2].map hashOfRow).Nodup ∧
    (insert_transactions ([wCand2].map some) 4 emptyStore).1 = (1, 0) ∧
    insert_transactions ([wCand2].map some) 6 (insert_transactions ([wCand2].map some) 4 emptyStore).2 =
      ((0, 1), (insert_transactions ([wCand2].map some) 4 emptyStore).2) := by
  have h := C3_insert_idempotent_amended [wCand2] 4 6 emptyStore (by simp)
    (by simp [emptyStore, storeHashes])
  exact ⟨by simp, by simpa using h.1, by simpa using h.2⟩

/-- Counterexample to C3 as stated: the two-element batch repeating one record
is well formed and no element is stored, yet the first call returns `(1, 1)`,
not `(N, 0) = (2, 0)`. -/
theorem C3_insert_idempotent_counterexample :
    (∀ r ∈ [wCand, wCand], hashOfRow r ∉ storeHashes emptyStore) ∧
    (insert_transactions ([wCand, wCand].map some) 0 emptyStore).1 = (1, 1) ∧
    (insert_transactions ([wCand, wCand].map some) 0 emptyStore).1 ≠ (2, 0) := by
  refine ⟨by simp [emptyStore, storeHashes], by decide, by decide⟩

/-- C9: a malformed row fails independently: inserting a batch with a failing
row in the middle skips exactly that row, counts it as a duplicate, and
processes the earlier and later rows exactly as they would be otherwise. -/
theorem C9_malformed_row_independent (pre post : List (Option CandidateRow)) (now : ℕ)
    (s : Store) :
    insert_transactions (pre ++ none :: post) now s =
      (((insert_transactions pre now s).1.1 +
          (insert_transactions post now (insert_transactions pre now s).2).1.1,
        (insert_transactions pre now s).1.2 + 1 +
          (insert_transactions post now (insert_transactions pre now s).2).1.2),
       (insert_transactions post now (insert_transactions pre now s).2).2) := by
  have h1 : insert_transactions (pre ++ none :: post) now s =
      (none :: post).foldl (insertStep now) (insert_transactions pre now s) := by
    simp only [insert_transactions, List.foldl_append]
  rw [h1]
  have h2 : (none :: post).foldl (insertStep now) (insert_transactions pre now s) =
      post.foldl (insertStep now)
        (((insert_transactions pre now s).1.1, (insert_transactions pre now s).1.2 + 1),
         (insert_transactions pre now s).2) := rfl
  rw [h2, insertFold_shift]

/-- C10: every input row is accounted for exactly once:
`newCount + skippedCount` equals the batch size, and `newCount` is exactly the
number of rows appended to the store. -/
theorem C10_insert_row_accounting (df : List (Option CandidateRow)) (now : ℕ) (s : Store) :
    (insert_transactions df now s).1.1 + (insert_transactions df now s).1.2 = df.length ∧
    (insert_transactions df now s).2.rows.length =
      s.rows.length + (insert_transactions df now s).1.1 :=
  insert_counts df now s

/-! ## Properties of the category-update operations -/

/-- C7: `update_transactions_by_concept` touches exactly the rows whose
description equals the argument: it returns their count, preserves the table
length and the id counter, rewrites `category` and `lastModified` of every
matching row, and leaves every non-matching row — timestamps included —
unchanged. -/
theorem C7_update_by_concept_frame (d c : List Char) (now : ℕ) (s : Store) :
    (update_transactions_by_concept d c now s).1 =
      (s.rows.filter (fun r => decide (r.concepto = d))).length ∧
    (update_transactions_by_concept d c now s).2.rows.length = s.rows.length ∧
    (update_transactions_by_concept d c now s).2.nextId = s.nextId ∧
    ∀ (i : ℕ) (r : StoredRow), s.rows[i]? = some r →
      (r.concepto = d →
        (update_transactions_by_concept d c now s).2.rows[i]? =
          some { r with category := c, lastModified := now }) ∧
      (r.concepto ≠ d →
        (update_transactions_by_concept d c now s).2.rows[i]? = some r) := by
  refine ⟨rfl, by simp [update_transactions_by_concept], rfl, ?_⟩
  intro i r hi
  constructor
  · intro hc
    simp [update_transactions_by_concept, List.getElem?_map, hi, hc]
  · intro hc
    simp [update_transactions_by_concept, List.getElem?_map, hi, hc]

/-- Witness for C7: recategorizing description `A` rewrites the matching row
and leaves the row with description `B` untouched. -/
theorem C7_update_by_concept_frame_witness :
    (update_transactions_by_concept "A".toList "Food".toList 9 w7store).2.rows[0]? =
      some { w7a with category := "Food".toList, lastModified := 9 } ∧
    (update_transactions_by_concept "A".toList "Food".toList 9 w7store).2.rows[1]? =
      some w7b := by
  have h := C7_update_by_concept_frame "A".toList "Food".toList 9 w7store
  exact ⟨(h.2.2.2 0 w7a (by rfl)).1 (by rfl), (h.2.2.2 1 w7b (by rfl)).2 (by decide)⟩

theorem update_map_eq_self (l : List StoredRow) (h c : List Char) (now : ℕ)
    (hab : ∀ r ∈ l, r.transactionHash ≠ h) :
    l.map (fun r =>
      if r.transactionHash = h then { r with category := c, lastModified := now } else r) = l := by
  induction l with
  | nil => rfl
  | cons a l ih =>
    simp only [List.map_cons]
    rw [if_neg (hab a (by simp)), ih (fun r hr => hab r (by simp [hr]))]

theorem update_map_eq_set (l : List StoredRow) (h c : List Char) (now : ℕ)
    (hnd : (l.map (fun r => r.transactionHash)).Nodup)
    (hmem : h ∈ l.map (fun r => r.transactionHash)) :
    ∃ i r, l[i]? = some r ∧ r.transactionHash = h ∧
      l.map (fun r =>
        if r.transactionHash = h then { r with category := c, lastModified := now } else r) =
        l.set i { r with category := c, lastModified := now } := by
  induction l with
  | nil => simp at hmem
  | cons a l ih =>
    by_cases ha : a.transactionHash = h
    · refine ⟨0, a, by simp, ha, ?_⟩
      simp only [List.map_cons, if_pos ha, List.set]
      congr 1
      apply update_map_eq_self
      intro r hr hcontra
      have hmem2 : a.transactionHash ∈ l.map (fun r => r.transactionHash) := by
        rw [ha, ← hcontra]
        exact List.mem_map_of_mem _ hr
      exact (List.nodup_cons.mp hnd).1 hmem2
    · have hmem2 : h ∈ l.map (fun r => r.transactionHash) := by
        simp only [List.map_cons, List.mem_cons] at hmem
        rcases hmem with h1 | h1
        · exact absurd h1.symm ha
        · simpa using h1
      obtain ⟨i, r, hi, hh, hset⟩ := ih (List.nodup_cons.mp hnd).2 hmem2
      refine ⟨i + 1, r, by simpa using hi, hh, ?_⟩
      simp only [List.map_cons, if_neg ha, hset]
      rfl

/-- C8: `update_transaction_category` is a no-op — not an error — when no row
has the given hash, and otherwise rewrites the category and `lastModified` of
exactly the one row carrying that hash (hashes being unique in the store). -/
theorem C8_update_by_hash (h c : List Char) (now : ℕ) (s : Store)
    (hnd : (storeHashes s).Nodup) :
    (h ∉ storeHashes s → update_transaction_category h c now s = s) ∧
    (h ∈ storeHashes s → ∃ i r, s.rows[i]? = some r ∧ r.transactionHash = h ∧
      (update_transaction_category h c now s).rows =
        s.rows.set i { r with category := c, lastModified := now } ∧
      (update_transaction_category h c now s).nextId = s.nextId) := by
  constructor
  · intro habs
    have hfix : ∀ r ∈ s.rows, r.transactionHash ≠ h := by
      intro r hr hcontra
      exact habs (hcontra ▸ List.mem_map_of_mem _ hr)
    show (⟨s.rows.map _, s.nextId⟩ : Store) = s
    rw [update_map_eq_self s.rows h c now hfix]
  · intro hmem
    obtain ⟨i, r, hi, hh, hset⟩ := update_map_eq_set s.rows h c now hnd hmem
    exact ⟨i, r, hi, hh, hset, rfl⟩

/-- Witness for C8: updating through an absent hash leaves the concrete
two-row store untouched. -/
theorem C8_update_by_hash_witness :
    update_transaction_category "h3".toList "Z".toList 11 w7store = w7store :=
  (C8_update_by_hash "h3".toList "Z".toList 11 w7store (by decide)).1 (by decide)

/-! ## Properties of the amount normalizer -/

/-- C5: the amount normalizer strips `€`, deletes `.` (thousands separator),
turns `,` into the decimal point (`"1.234,56€"` parses to `1234.56`),
classifies strictly negative amounts as `Debit` and zero-or-positive amounts
as `Credit`, stores the absolute value, and yields the `MalformedAmount`
outcome (`none`) exactly when the cleaned string is not a valid number. -/
theorem C5_amount_normalizer :
    normalizeImporte "1.234,56€".toList = some (1234.56 : ℚ) ∧
    processAmount "-12,50€".toList = some ((12.50 : ℚ), "Debit".toList) ∧
    processAmount "0,00€".toList = some ((0 : ℚ), "Credit".toList) ∧
    (∀ raw x, normalizeImporte raw = some x →
      processAmount raw =
        some (qabs x, if x < 0 then "Debit".toList else "Credit".toList) ∧ 0 ≤ qabs x) ∧
    (∀ raw, normalizeImporte raw = none → processAmount raw = none) := by
  refine ⟨?_, ?_, by decide, ?_, ?_⟩
  · have h : normalizeImporte "1.234,56€".toList = some (mkRat 123456 100) := by decide
    rw [h]
    congr 1
    rw [Rat.mkRat_eq_divInt, Rat.divInt_eq_div]
    norm_num
  · have h : processAmount "-12,50€".toList = some (mkRat 1250 100, "Debit".toList) := by decide
    rw [h]
    have h2 : (mkRat 1250 100 : ℚ) = 12.50 := by
      rw [Rat.mkRat_eq_divInt, Rat.divInt_eq_div]
      norm_num
    rw [h2]
  · intro raw x h
    constructor
    · simp [processAmount, h, tipoOf]
    · simp only [qabs]
      split_ifs with hx
      · linarith
      · linarith [not_lt.mp hx]
  · intro raw h
    simp [processAmount, h]

/-- Witness for C5: a plain negative integer amount is parsed, classified as
`Debit`, stored as its absolute value; a malformed amount propagates the
failure. -/
theorem C5_amount_normalizer_witness :
    processAmount "-7".toList =
      some (qabs (mkRat (-7) 1),
        if (mkRat (-7) 1 : ℚ) < 0 then "Debit".toList else "Credit".toList) ∧
    processAmount "x€".toList = none :=
  ⟨(C5_amount_normalizer.2.2.2.1 "-7".toList (mkRat (-7) 1) (by decide)).1,
   C5_amount_normalizer.2.2.2.2 "x€".toList (by decide)⟩

/-! ## Properties of the keyword categorizer -/

theorem categorize_foldl_last (cats : List (List Char × List (List Char)))
    (concepto : List Char) (acc : List Char) :
    cats.foldl
      (fun acc ckw =>
        if ckw.1 = UNCAT ∨ ckw.2 = [] then acc
        else if kwMatched concepto ckw.2 then ckw.1 else acc) acc =
      ((cats.filter (fun ckw =>
          decide (¬(ckw.1 = UNCAT ∨ ckw.2 = [])) && kwMatched concepto ckw.2)).map
        Prod.fst).getLastD acc := by
  induction cats generalizing acc with
  | nil => rfl
  | cons ckw cats ih =>
    simp only [List.foldl_cons]
    by_cases h1 : ckw.1 = UNCAT ∨ ckw.2 = []
    · rw [if_pos h1, List.filter_cons_of_neg (by simp [h1]), ih]
    · by_cases h2 : kwMatched concepto ckw.2 = true
      · rw [if_neg h1, if_pos h2, List.filter_cons_of_pos (by simp [h1, h2]),
          List.map_cons, List.getLastD_cons, ih]
      · rw [if_neg h1, if_neg h2, List.filter_cons_of_neg (by simp [h2]), ih]

/-- C4 (amended): for every registry and description, the code assigns the
LAST category in registry-iteration order — among entries other than
`Uncategorized` with a non-empty keyword list — some of whose keywords,
lowercased and stripped, occur in the lowercased, stripped description; if no
such entry matches, the sentinel `Uncategorized` is assigned.  The spec's
Mercadona scenario holds under this rule. -/
theorem C4_categorizer_last_match (cats : List (List Char × List (List Char)))
    (concepto : List Char) :
    categorize_transactions cats concepto =
      ((cats.filter (fun ckw =>
          decide (¬(ckw.1 = UNCAT ∨ ckw.2 = [])) && kwMatched concepto ckw.2)).map
        Prod.fst).getLastD UNCAT ∧
    categorize_transactions [(UNCAT, []), ("Groceries".toList, ["MERCADONA".toList])]
      "COMPRA Mercadona MADRID".toList = "Groceries".toList :=
  ⟨categorize_foldl_last cats concepto UNCAT, by decide⟩

/-- Counterexample to C4 as stated: when two categories both have a matching
keyword, the code assigns the second one (last in registry order), not the
first as the claim requires. -/
theorem C4_categorizer_counterexample :
    categorize_transactions [("A".toList, ["x".toList]), ("B".toList, ["x".toList])]
      "x".toList = "B".toList ∧
    categorizeFirstMatchSpec [("A".toList, ["x".toList]), ("B".toList, ["x".toList])]
      "x".toList = "A".toList ∧
    ("B".toList : List Char) ≠ "A".toList := by
  refine ⟨by decide, by decide, by decide⟩

/-! ## Properties of `load_all_transactions` -/

theorem ltChars_irrefl (x : List Char) : ltChars x x = false := by
  induction x with
  | nil => rfl
  | cons a as ih => simp [ltChars, lt_irrefl, ih]

theorem ltChars_trans {x y z : List Char} (h1 : ltChars x y = true)
    (h2 : ltChars y z = true) : ltChars x z = true := by
  induction x generalizing y z with
  | nil =>
    cases y with
    | nil => simp [ltChars] at h1
    | cons b bs =>
      cases z with
      | nil => simp [ltChars] at h2
      | cons c cs => rfl
  | cons a as ih =>
    cases y with
    | nil => simp [ltChars] at h1
    | cons b bs =>
      cases z with
      | nil => simp [ltChars] at h2
      | cons c cs =>
        simp only [ltChars] at h1 h2 ⊢
        by_cases hab : a < b
        · by_cases hbc : b < c
          · simp [lt_trans hab hbc]
          · by_cases hcb : c < b
            · simp [hbc, hcb] at h2
            · have hbc2 : b = c := le_antisymm (not_lt.mp hcb) (not_lt.mp hbc)
              simp [hbc2 ▸ hab]
        · by_cases hba : b < a
          · simp [hab, hba] at h1
          · have hab2 : a = b := le_antisymm (not_lt.mp hba) (not_lt.mp hab)
            subst hab2
            simp only [lt_irrefl, if_false] at h1
            by_cases hac : a < c
            · simp [hac]
            · by_cases hca : c < a
              · simp [hac, hca] at h2
              · simp only [hac, hca, if_false]
                exact ih h1 (by simpa [hac, hca] using h2)

theorem ltChars_connex {x y : List Char} (h : x ≠ y) :
    ltChars x y = true ∨ ltChars y x = true := by
  induction x generalizing y with
  | nil =>
    cases y with
    | nil => exact absurd rfl h
    | cons b bs => exact Or.inl rfl
  | cons a as ih =>
    cases y with
    | nil => exact Or.inr rfl
    | cons b bs =>
      by_cases hab : a < b
      · exact Or.inl (by simp [ltChars, hab])
      · by_cases hba : b < a
        · exact Or.inr (by simp [ltChars, hba])
        · have heq : a = b := le_antisymm (not_lt.mp hba) (not_lt.mp hab)
          subst heq
          have hne : as ≠ bs := fun hh => h (by rw [hh])
          rcases ih hne with h1 | h1
          · exact Or.inl (by simp [ltChars, lt_irrefl, h1])
          · exact Or.inr (by simp [ltChars, lt_irrefl, h1])

instance : IsTrans StoredRow loadRel where
  trans a b c h1 h2 := by
    simp only [loadRel, loadOrder, Bool.or_eq_true, Bool.and_eq_true,
      decide_eq_true_eq] at h1 h2 ⊢
    rcases h1 with hlt1 | ⟨heq1, hid1⟩
    · rcases h2 with hlt2 | ⟨heq2, hid2⟩
      · exact Or.inl (ltChars_trans hlt2 hlt1)
      · exact Or.inl (heq2 ▸ hlt1)
    · rcases h2 with hlt2 | ⟨heq2, hid2⟩
      · exact Or.inl (heq1 ▸ hlt2)
      · exact Or.inr ⟨heq1 ▸ heq2, le_trans hid2 hid1⟩

instance : IsTotal StoredRow loadRel where
  total a b := by
    simp only [loadRel, loadOrder, Bool.or_eq_true, Bool.and_eq_true, decide_eq_true_eq]
    by_cases heq : b.fechaValor = a.fechaValor
    · rcases le_total b.rowId a.rowId with hid | hid
      · exact Or.inl (Or.inr ⟨heq, hid⟩)
      · exact Or.inr (Or.inr ⟨heq.symm, hid⟩)
    · rcases ltChars_connex heq with h1 | h1
      · exact Or.inl (Or.inl h1)
      · exact Or.inr (Or.inl h1)

/-- C6 (amended): `load_all_transactions` returns the projection of every
stored record exactly once, with value dates non-increasing; records sharing a
value date appear in descending surrogate-id order — reverse insertion order,
as produced by the backwards scan of the date index — not insertion order. -/
theorem C6_load_all_order (s : Store) :
    load_all_transactions s = (orderedRows s).map projRow ∧
    (orderedRows s).Perm s.rows ∧
    (load_all_transactions s).Perm (s.rows.map projRow) ∧
    (orderedRows s).Pairwise (fun a b =>
      (ltChars b.fechaValor a.fechaValor = true ∨ b.fechaValor = a.fechaValor) ∧
      (b.fechaValor = a.fechaValor → b.rowId ≤ a.rowId)) := by
  refine ⟨rfl, List.perm_insertionSort loadRel s.rows,
    (List.perm_insertionSort loadRel s.rows).map projRow, ?_⟩
  have hs : (orderedRows s).Pairwise loadRel := List.sorted_insertionSort loadRel s.rows
  refine hs.imp ?_
  intro a b hab
  simp only [loadRel, loadOrder, Bool.or_eq_true, Bool.and_eq_true,
    decide_eq_true_eq] at hab
  rcases hab with hlt | ⟨heq, hid⟩
  · refine ⟨Or.inl hlt, fun heq => ?_⟩
    rw [heq] at hlt
    rw [ltChars_irrefl] at hlt
    exact absurd hlt (by simp)
  · exact ⟨Or.inr heq, fun _ => hid⟩

/-- Counterexample to C6 as stated: `cA` and `cB` share a value date and are
inserted in that order (ids 1, 2), yet `load_all_transactions` returns `cB`
first — equal-date records come back in reverse insertion order. -/
theorem C6_load_all_counterexample :
    cStore.rows = [rA, rB] ∧
    load_all_transactions cStore = [projRow rB, projRow rA] ∧
    projRow rA ≠ projRow rB ∧
    load_all_transactions cStore ≠ [projRow rA, projRow rB] := by
  refine ⟨?_, ?_, ?_, ?_⟩ <;> decide

/-! ## Properties of the content hash -/

theorem digitChar10_toNat (n : ℕ) : (digitChar10 n).toNat = 48 + n % 10 := by
  have h10 : n % 10 = 0 ∨ n % 10 = 1 ∨ n % 10 = 2 ∨ n % 10 = 3 ∨ n % 10 = 4 ∨ n % 10 = 5 ∨
      n % 10 = 6 ∨ n % 10 = 7 ∨ n % 10 = 8 ∨ n % 10 = 9 := by omega
  unfold digitChar10
  rcases h10 with h1 | h1 | h1 | h1 | h1 | h1 | h1 | h1 | h1 | h1 <;> rw [h1] <;> decide

theorem digitsVal_append_one (xs : List Char) (c : Char) :
    digitsVal (xs ++ [c]) = 10 * digitsVal xs + (c.toNat - 48) := by
  simp [digitsVal, List.foldl_append]

theorem natDecimalAux_digitsVal : ∀ (fuel n : ℕ), n ≤ fuel →
    digitsVal (natDecimalAux fuel n) = n
  | 0, n, h => by
    have hn : n = 0 := by omega
    subst hn
    simp [natDecimalAux, digitsVal, digitChar10_toNat]
  | fuel + 1, n, h => by
    simp only [natDecimalAux]
    by_cases hn : n < 10
    · rw [if_pos hn]
      simp only [digitsVal, List.foldl_cons, List.foldl_nil, digitChar10_toNat]
      omega
    · rw [if_neg hn, digitsVal_append_one,
        natDecimalAux_digitsVal fuel (n / 10)
          (by have := Nat.div_lt_self (by omega : 0 < n) (by omega : 1 < 10); omega),
        digitChar10_toNat]
      omega

theorem natDecimal_inj {a b : ℕ} (h : natDecimal a = natDecimal b) : a = b := by
  calc a = digitsVal (natDecimalAux a a) := (natDecimalAux_digitsVal a a le_rfl).symm
    _ = digitsVal (natDecimalAux b b) := by rw [show natDecimalAux a a = natDecimalAux b b from h]
    _ = b := natDecimalAux_digitsVal b b le_rfl

theorem natDecimalAux_mem_digit : ∀ (fuel n : ℕ) (c : Char), c ∈ natDecimalAux fuel n →
    48 ≤ c.toNat ∧ c.toNat ≤ 57
  | 0, n, c, h => by
    simp only [natDecimalAux, List.mem_singleton] at h
    subst h
    rw [digitChar10_toNat]
    omega
  | fuel + 1, n, c, h => by
    simp only [natDecimalAux] at h
    by_cases hn : n < 10
    · rw [if_pos hn] at h
      simp only [List.mem_singleton] at h
      subst h
      rw [digitChar10_toNat]
      omega
    · rw [if_neg hn] at h
      rcases List.mem_append.mp h with h1 | h1
      · exact natDecimalAux_mem_digit fuel (n / 10) c h1
      · simp only [List.mem_singleton] at h1
        subst h1
        rw [digitChar10_toNat]
        omega

theorem not_mem_natDecimal {n : ℕ} {c : Char} (hc : c.toNat < 48 ∨ 57 < c.toNat) :
    c ∉ natDecimal n := by
  intro h
  have := natDecimalAux_mem_digit n n c h
  omega

theorem append_sep_cancel {sep : Char} : ∀ {xs ys as bs : List Char}, sep ∉ xs → sep ∉ ys →
    xs ++ sep :: as = ys ++ sep :: bs → xs = ys ∧ as = bs
  | [], [], as, bs, _, _, h => ⟨rfl, by simpa using h⟩
  | [], y :: ys, as, bs, _, hy, h => by
    simp only [List.nil_append, List.cons_append, List.cons.injEq] at h
    exact absurd (by rw [h.1]; exact List.mem_cons_self y ys) hy
  | x :: xs, [], as, bs, hx, _, h => by
    simp only [List.cons_append, List.nil_append, List.cons.injEq] at h
    exact absurd (by rw [← h.1]; exact List.mem_cons_self x xs) hx
  | x :: xs, y :: ys, as, bs, hx, hy, h => by
    simp only [List.cons_append, List.cons.injEq] at h
    obtain ⟨hxy, hrest⟩ := h
    obtain ⟨hxs, has⟩ := append_sep_cancel
      (fun hm => hx (List.mem_cons_of_mem x hm)) (fun hm => hy (List.mem_cons_of_mem y hm)) hrest
    exact ⟨by rw [hxy, hxs], has⟩

theorem append_sep_reverse (xs ys : List Char) (sep : Char) :
    (xs ++ sep :: ys).reverse = ys.reverse ++ sep :: xs.reverse := by
  simp [List.reverse_append, List.reverse_cons, List.append_assoc]

theorem centsRender_inj {c1 c2 : ℕ} (h : centsRender c1 = centsRender c2) : c1 = c2 := by
  unfold centsRender at h
  obtain ⟨h1, h2⟩ := append_sep_cancel
    (not_mem_natDecimal (Or.inl (by decide))) (not_mem_natDecimal (Or.inl (by decide))) h
  have hd := natDecimal_inj h1
  simp only [List.cons.injEq, and_true] at h2
  have e1 := congrArg Char.toNat h2.1
  rw [digitChar10_toNat, digitChar10_toNat] at e1
  have e2 := congrArg Char.toNat h2.2
  rw [digitChar10_toNat, digitChar10_toNat] at e2
  omega

theorem bar_not_mem_formatAbs2 (q : ℚ) : ('|' : Char) ∉ formatAbs2 q := by
  unfold formatAbs2 centsRender
  intro h
  rcases List.mem_append.mp h with h1 | h1
  · exact not_mem_natDecimal (Or.inr (by decide)) h1
  · rcases List.mem_cons.mp h1 with h2 | h2
    · exact absurd h2 (by decide)
    · have h124 : ('|' : Char).toNat = 124 := rfl
      rcases List.mem_cons.mp h2 with h3 | h3
      · have := congrArg Char.toNat h3
        rw [digitChar10_toNat, h124] at this
        omega
      · rcases List.mem_singleton.mp h3 with h4
        have := congrArg Char.toNat h4
        rw [digitChar10_toNat, h124] at this
        omega

theorem normalizedData_eq_iff (f1 c1 : List Char) (q1 : ℚ) (f2 c2 : List Char) (q2 : ℚ)
    (h1 : ('|' : Char) ∉ f1) (h2 : ('|' : Char) ∉ f2) :
    normalizedData f1 c1 q1 = normalizedData f2 c2 q2 ↔
      (f1 = f2 ∧ pyStrip c1 = pyStrip c2 ∧ absCents q1 = absCents q2) := by
  constructor
  · intro h
    obtain ⟨hf, hrest⟩ := append_sep_cancel h1 h2 h
    have hrev := congrArg List.reverse hrest
    rw [append_sep_reverse, append_sep_reverse] at hrev
    obtain ⟨hfa, hstrip⟩ := append_sep_cancel
      (fun hm => bar_not_mem_formatAbs2 q1 (List.mem_reverse.mp hm))
      (fun hm => bar_not_mem_formatAbs2 q2 (List.mem_reverse.mp hm)) hrev
    refine ⟨hf, List.reverse_injective hstrip, ?_⟩
    have hfa2 : formatAbs2 q1 = formatAbs2 q2 := List.reverse_injective hfa
    exact centsRender_inj hfa2
  · rintro ⟨hf, hc, hq⟩
    unfold normalizedData formatAbs2
    rw [hf, hc, hq]

theorem wordHex_mod {x y : ℕ} (h : x % w32 = y % w32) : wordHex x = wordHex y := by
  simp only [wordHex]
  rw [h]

theorem hexdigest_congr (m1 m2 : List ℕ) (h : digestFin m1 = digestFin m2) :
    hexdigest m1 = hexdigest m2 := by
  have h1 : (sha256 m1).a % w32 = (sha256 m2).a % w32 := congrArg (fun t => t.1.1) h
  have h2 : (sha256 m1).b % w32 = (sha256 m2).b % w32 := congrArg (fun t => t.2.1.1) h
  have h3 : (sha256 m1).c % w32 = (sha256 m2).c % w32 := congrArg (fun t => t.2.2.1.1) h
  have h4 : (sha256 m1).d % w32 = (sha256 m2).d % w32 := congrArg (fun t => t.2.2.2.1.1) h
  have h5 : (sha256 m1).e % w32 = (sha256 m2).e % w32 := congrArg (fun t => t.2.2.2.2.1.1) h
  have h6 : (sha256 m1).f % w32 = (sha256 m2).f % w32 := congrArg (fun t => t.2.2.2.2.2.1.1) h
  have h7 : (sha256 m1).g % w32 = (sha256 m2).g % w32 := congrArg (fun t => t.2.2.2.2.2.2.1.1) h
  have h8 : (sha256 m1).h % w32 = (sha256 m2).h % w32 := congrArg (fun t => t.2.2.2.2.2.2.2.1) h
  show wordHex (sha256 m1).a ++ wordHex (sha256 m1).b ++ wordHex (sha256 m1).c ++
      wordHex (sha256 m1).d ++ wordHex (sha256 m1).e ++ wordHex (sha256 m1).f ++
      wordHex (sha256 m1).g ++ wordHex (sha256 m1).h = _
  rw [wordHex_mod h1, wordHex_mod h2, wordHex_mod h3, wordHex_mod h4, wordHex_mod h5,
    wordHex_mod h6, wordHex_mod h7, wordHex_mod h8]
  rfl

theorem dropWhile_space_replicate (k : ℕ) :
    List.dropWhile pySpaceChar (List.replicate k 'a') = List.replicate k 'a' := by
  cases k with
  | zero => rfl
  | succ k =>
    rw [List.replicate_succ, List.dropWhile_cons]
    simp [show pySpaceChar 'a' = false from rfl]

theorem pyStrip_replicate (k : ℕ) : pyStrip (List.replicate k 'a') = List.replicate k 'a' := by
  unfold pyStrip
  rw [dropWhile_space_replicate, List.reverse_replicate, dropWhile_space_replicate,
    List.reverse_replicate]

theorem absCents_neg (q : ℚ) : absCents (-q) = absCents q := by
  unfold absCents
  have hn : (-q).num = -q.num := rfl
  have hd : (-q).den = q.den := rfl
  rw [hn, hd, Int.natAbs_neg]

theorem hash_eq_of_agree {f1 c1 q1 f2 c2 q2} (hf : f1 = f2) (hc : pyStrip c1 = pyStrip c2)
    (hq : absCents q1 = absCents q2) :
    generate_transaction_hash f1 c1 q1 = generate_transaction_hash f2 c2 q2 := by
  unfold generate_transaction_hash normalizedData formatAbs2
  rw [hf, hc, hq]

/-- Counterexample to C1 as stated: since value date and amount fixed, the
digest of the normalized string ranges over the finitely many eight-word
states while the description ranges over infinitely many values, two records
with different (trimmed) descriptions must share their SHA-256 content hash,
so hash equality does not imply agreement of the hashed fields. -/
theorem C1_hash_iff_counterexample :
    ¬ (∀ (f1 c1 : List Char) (q1 : ℚ) (f2 c2 : List Char) (q2 : ℚ),
        ('|' : Char) ∉ f1 → ('|' : Char) ∉ f2 →
        (generate_transaction_hash f1 c1 q1 = generate_transaction_hash f2 c2 q2 ↔
          (f1 = f2 ∧ pyStrip c1 = pyStrip c2 ∧ absCents q1 = absCents q2))) := by
  intro H
  obtain ⟨m, n, hmn, hfn⟩ := Finite.exists_ne_map_eq_of_infinite
    (fun k : ℕ => digestFin (utf8Encode (normalizedData isoDateW (List.replicate k 'a') 1)))
  have hhash : generate_transaction_hash isoDateW (List.replicate m 'a') 1 =
      generate_transaction_hash isoDateW (List.replicate n 'a') 1 :=
    hexdigest_congr _ _ hfn
  have hbar : ('|' : Char) ∉ isoDateW := by decide
  have hagree := (H isoDateW (List.replicate m 'a') 1 isoDateW (List.replicate n 'a') 1
    hbar hbar).mp hhash
  have hstrip := hagree.2.1
  rw [pyStrip_replicate, pyStrip_replicate] at hstrip
  exact hmn (by simpa using congrArg List.length hstrip)

/-- C1 (amended): the content hash is exactly the SHA-256 lowercase-hex digest
of the UTF-8 bytes of `"{date}|{stripped description}|{abs amount to 2
decimals}"`; the normalization string identifies records exactly up to value
date, stripped description and absolute amount rounded to two decimals (the
date having no `|`), agreement of those fields implies hash equality, and the
hash ignores the amount's sign (hence the record's kind) and its category.
Hash equality coincides with field agreement only up to SHA-256 collisions,
which exist by counting. -/
theorem C1_hash_normalization_amended (f1 c1 : List Char) (q1 : ℚ) (f2 c2 : List Char)
    (q2 : ℚ) (h1 : ('|' : Char) ∉ f1) (h2 : ('|' : Char) ∉ f2) :
    generate_transaction_hash f1 c1 q1 = hexdigest (utf8Encode (normalizedData f1 c1 q1)) ∧
    (normalizedData f1 c1 q1 = normalizedData f2 c2 q2 ↔
      (f1 = f2 ∧ pyStrip c1 = pyStrip c2 ∧ absCents q1 = absCents q2)) ∧
    ((f1 = f2 ∧ pyStrip c1 = pyStrip c2 ∧ absCents q1 = absCents q2) →
      generate_transaction_hash f1 c1 q1 = generate_transaction_hash f2 c2 q2) ∧
    generate_transaction_hash f1 c1 q1 = generate_transaction_hash f1 c1 (-q1) := by
  refine ⟨rfl, normalizedData_eq_iff f1 c1 q1 f2 c2 q2 h1 h2, ?_, ?_⟩
  · rintro ⟨hf, hc, hq⟩
    exact hash_eq_of_agree hf hc hq
  · exact hash_eq_of_agree rfl rfl (absCents_neg q1).symm

/-- Witness for C1 (amended): same date, descriptions differing only in
surrounding whitespace, and amounts `1` and `-100/100` produce equal hashes. -/
theorem C1_hash_normalization_amended_witness :
    generate_transaction_hash isoDateW "a".toList 1 =
      generate_transaction_hash isoDateW " a ".toList (-(mkRat 100 100)) :=
  (C1_hash_normalization_amended isoDateW "a".toList 1 isoDateW " a ".toList
      (-(mkRat 100 100)) (by decide) (by decide)).2.2.1 ⟨rfl, by decide, by decide⟩
